import Mathlib

/-!
Shallow embedding of the time-series nearest-neighbor matching core of
`add_photo_locations_from_google_history.py`.

The embedded parts are, with their Python counterparts:

* `RawLocation` — one raw record of the decoded `locations` collection of the
  Google Takeout JSON (the input feed: a timestamp in epoch-milliseconds that
  may be missing, and optional fixed-point E7 coordinates).
* `GoogleHistory.load_location_history` — `LocationHistory._load_location_history`:
  normalizes each record (E7 → degrees, absent coordinates become `none`),
  fails when a record lacks `timestampMs` (Python: `KeyError` caught and
  re-raised as `ValueError`), and sorts by timestamp (Python `sorted` is a
  stable sort, embedded as `List.insertionSort`, which is stable for the
  at-most-or-equal relation on keys).
* `GoogleHistory.extract_timestamps` — `_extract_timestamps_from_history`.
* `GoogleHistory.location_dict` — `_location_history_to_dict_by_timestamp`:
  a Python dict comprehension; later entries overwrite earlier ones sharing a
  key (last-write-wins), embedded as a left fold of single-key overwrites.
* `GoogleHistory.bisect_left` — Python `bisect.bisect_left`, embedded as the
  classic binary-search loop (`while lo < hi: mid = (lo+hi)//2; ...`), with a
  fuel argument that makes the recursion structural; `a.length + 1` fuel
  always suffices since `hi - lo` shrinks every iteration.
* `GoogleHistory.pyMin` — Python `min(xs, key=k)`: raises on an empty
  sequence (here `none`), otherwise returns the FIRST element attaining the
  minimal key (`min` only replaces the running value on a strict decrease).
* `LocationHistory.nearest_location_from_timestamp`, `.nearest_location`,
  `add_location_to_photo` — direct translations; the Python float division
  `abs(...) / 1000` is embedded exactly as rational division, and Python's
  `int()` truncation toward zero as `pyInt`.

Machine integers are `Int` (Python ints are unbounded, so no wrap-around is
modelled); fallible operations return `Except HistErr`. The photo-library
write-back, EXIF tagging, and CLI glue are external collaborators and are not
embedded; `add_location_to_photo` is embedded up to its match/no-match
verdict and payload.
-/

namespace GoogleHistory

/-- Error kinds of the core (spec §7): `malformedInput` models the
`ValueError` raised when a record lacks a usable timestamp during
construction; `emptyIndex` models the `ValueError` raised by `min()` on the
empty candidate window when the index has no records; `keyError` models a
Python `KeyError` on dict lookup (never reachable for constructed indexes). -/
inductive HistErr where
  | malformedInput
  | emptyIndex
  | keyError
deriving DecidableEq, Repr

/-- One raw record of the decoded `locations` collection: `timestampMs` may be
absent (`none`), and the fixed-point E7 coordinates are optional. -/
structure RawLocation where
  timestampMs : Option Int
  latitudeE7 : Option Int
  longitudeE7 : Option Int
deriving DecidableEq, Repr

/-- A normalized location record: integer epoch-milliseconds timestamp and
optional coordinates in floating-point degrees (embedded as exact rationals;
the Python computation `latitudeE7 / 1e7` divides by ten million). -/
structure Location where
  timestampMs : Int
  latitude : Option ℚ
  longitude : Option ℚ
deriving DecidableEq, Repr

/-- Normalization of one raw record whose timestamp is `ts`:
mirrors the loop body of `_load_location_history` (lines 63–76). -/
def normLoc (ts : Int) (r : RawLocation) : Location where
  timestampMs := ts
  latitude := r.latitudeE7.map fun v => (v : ℚ) / 10000000
  longitude := r.longitudeE7.map fun v => (v : ℚ) / 10000000

/-- Total version of `normLoc` usable once all timestamps are known present. -/
def normD (r : RawLocation) : Location :=
  normLoc (r.timestampMs.getD 0) r

/-- The normalization loop of `_load_location_history`: processes records in
order and aborts at the first record lacking `timestampMs` (Python `KeyError`
→ `ValueError`), so construction is all-or-nothing. -/
def normalizeRecords : List RawLocation → Except HistErr (List Location)
  | [] => .ok []
  | r :: rest =>
    match r.timestampMs with
    | none => .error .malformedInput
    | some ts => (normalizeRecords rest).map fun l => normLoc ts r :: l

/-- The sort key relation of `sorted(location_history, key=lambda x: x["timestampMs"])`. -/
def tsle (a b : Location) : Prop := a.timestampMs ≤ b.timestampMs

instance : DecidableRel tsle := fun a b => inferInstanceAs (Decidable (a.timestampMs ≤ b.timestampMs))

instance : IsTotal Location tsle := ⟨fun a b => Int.le_total a.timestampMs b.timestampMs⟩

instance : IsTrans Location tsle := ⟨fun _ _ _ hab hbc => le_trans hab hbc⟩

/-- `LocationHistory._load_location_history`: normalize every record, then
return them sorted by timestamp (Python `sorted` is stable; `insertionSort`
with `tsle` computes the same stable sort). -/
def load_location_history (raw : List RawLocation) : Except HistErr (List Location) :=
  (normalizeRecords raw).map fun l => l.insertionSort tsle

/-- `LocationHistory._extract_timestamps_from_history`. -/
def extract_timestamps (l : List Location) : List Int :=
  l.map (·.timestampMs)

/-- One step of building the Python dict `{int(x["timestampMs"]): x for x in ...}`:
insert `x` under its timestamp, overwriting any previous entry for that key. -/
def dictInsert (d : Int → Option Location) (x : Location) : Int → Option Location :=
  fun k => if k = x.timestampMs then some x else d k

/-- `LocationHistory._location_history_to_dict_by_timestamp`: the dict built
by iterating the (sorted) record list left to right; later records overwrite
earlier ones sharing a timestamp (last-write-wins). -/
def location_dict (l : List Location) : Int → Option Location :=
  l.foldl dictInsert (fun _ => none)

/-- The index object built by `LocationHistory.__init__` from the decoded
records: the sorted record sequence, the parallel timestamp array, and the
timestamp → record mapping. -/
structure LocationHistory where
  location_history : List Location
  timestamps : List Int
  locdict : Int → Option Location

/-- `LocationHistory.__init__` (minus file IO): build the index from the
decoded raw collection; any failure during loading aborts construction
entirely and no index value is produced. -/
def LocationHistory.make (raw : List RawLocation) : Except HistErr LocationHistory :=
  (load_location_history raw).map fun lh =>
    { location_history := lh
      timestamps := extract_timestamps lh
      locdict := location_dict lh }

/-- `LocationHistory.__len__`. -/
def LocationHistory.len (h : LocationHistory) : Nat :=
  h.location_history.length

/-- The binary-search loop of `bisect.bisect_left`:
`while lo < hi: mid = (lo + hi) // 2; if a[mid] < x: lo = mid + 1 else hi = mid`.
The first argument is fuel making the recursion structural; since `hi - lo`
strictly decreases each iteration, any fuel of at least `hi - lo` iterations
reaches the loop exit. -/
def bisectLeftGo (a : List Int) (x : Int) : Nat → Nat → Nat → Nat
  | 0, lo, _ => lo
  | fuel + 1, lo, hi =>
    if lo < hi then
      let mid := (lo + hi) / 2
      if a.getD mid 0 < x then bisectLeftGo a x fuel (mid + 1) hi
      else bisectLeftGo a x fuel lo mid
    else lo

/-- `bisect.bisect_left(a, x)`: leftmost insertion point of `x` in `a`. -/
def bisect_left (a : List Int) (x : Int) : Nat :=
  bisectLeftGo a x (a.length + 1) 0 a.length

/-- Python `min(l, key=key)` as used on the candidate window: `none` on the
empty list (Python raises `ValueError`), otherwise the first element with
minimal key (Python `min` keeps the current best unless the new key is
strictly smaller). -/
def pyMin (key : Int → Int) : List Int → Option Int
  | [] => none
  | x :: xs => some (xs.foldl (fun acc y => if key y < key acc then y else acc) x)

/-- Python slice `l[a : b]` for `0 ≤ a ≤ b`. -/
def pySlice (l : List Int) (a b : Nat) : List Int :=
  (l.drop a).take (b - a)

/-- `LocationHistory._nearest_location_from_timestamp`: binary-search the
insertion point `i`, then take the minimum-by-absolute-difference over the
window `timestamps[max(0, i-1) : i+2]` (truncated `Nat` subtraction equals
Python's `max(0, i - 1)`). -/
def LocationHistory.nearest_location_from_timestamp (h : LocationHistory) (timestamp : Int) :
    Option Int :=
  let i := bisect_left h.timestamps timestamp
  pyMin (fun t => |timestamp - t|) (pySlice h.timestamps (i - 1) (i + 2))

/-- `LocationHistory.nearest_location`, taking the query already converted to
epoch-milliseconds (line 44 of the source does this conversion from a
`datetime`): returns the nearest record and `abs(record.timestampMs - msec) / 1000`,
Python float (true) division embedded as exact rational division. -/
def LocationHistory.nearest_location (h : LocationHistory) (msec : Int) :
    Except HistErr (Location × ℚ) :=
  match h.nearest_location_from_timestamp msec with
  | none => .error .emptyIndex
  | some nearest =>
    match h.locdict nearest with
    | none => .error .keyError
    | some nearest_record =>
      .ok (nearest_record, (|nearest_record.timestampMs - msec| : ℤ) / (1000 : ℚ))

/-- Python `int()` on a rational: truncation toward zero. -/
def pyInt (q : ℚ) : Int :=
  if 0 ≤ q then ⌊q⌋ else -⌊-q⌋

/-- The matching decision of `add_location_to_photo` (lines 109–112): query
the nearest record for the photo's date (in epoch-milliseconds), truncate the
delta to whole seconds with `int()`, and return no-match (`some none`,
Python `return 0`) when the delta reaches the threshold, otherwise the match
verdict with the located record and its truncated delta. An error from
`nearest_location` propagates unchanged (the Python `try` only guards the
photo-library write-back, which is an external collaborator not embedded
here). -/
def add_location_to_photo (h : LocationHistory) (photoDateMsec : Int) (delta : Int) :
    Except HistErr (Option (Location × Int)) :=
  match h.nearest_location photoDateMsec with
  | .error e => .error e
  | .ok (nearest_loc, nearest_delta_q) =>
    let nearest_delta := pyInt nearest_delta_q
    if nearest_delta ≥ delta then .ok none
    else .ok (some (nearest_loc, nearest_delta))

/-! ### Lemmas about record normalization -/

theorem normalizeRecords_ok (raw : List RawLocation)
    (hall : ∀ r ∈ raw, r.timestampMs ≠ none) :
    normalizeRecords raw = .ok (raw.map normD) := by
  induction raw with
  | nil => rfl
  | cons r rest ih =>
    have hr := hall r (List.mem_cons_self r rest)
    obtain ⟨ts, hts⟩ := Option.ne_none_iff_exists'.mp hr
    have hrest : normalizeRecords rest = .ok (rest.map normD) :=
      ih fun x hx => hall x (List.mem_cons_of_mem r hx)
    simp [normalizeRecords, hts, hrest, Except.map, normD]

theorem normalizeRecords_error (raw : List RawLocation)
    (hmiss : ∃ r ∈ raw, r.timestampMs = none) :
    normalizeRecords raw = .error .malformedInput := by
  induction raw with
  | nil => simp at hmiss
  | cons r rest ih =>
    by_cases hr : r.timestampMs = none
    · simp [normalizeRecords, hr]
    · obtain ⟨x, hx, hxn⟩ := hmiss
      rcases List.mem_cons.mp hx with rfl | hx'
      · exact absurd hxn hr
      · obtain ⟨ts, hts⟩ := Option.ne_none_iff_exists'.mp hr
        simp [normalizeRecords, hts, ih ⟨x, hx', hxn⟩, Except.map]

/-! ### Stability of the sort with respect to the timestamp key -/

theorem filter_orderedInsert_key (t : Int) (a : Location) (l : List Location)
    (hs : l.Sorted tsle) :
    (l.orderedInsert tsle a).filter (fun x => decide (x.timestampMs = t)) =
      if a.timestampMs = t then a :: l.filter (fun x => decide (x.timestampMs = t))
      else l.filter (fun x => decide (x.timestampMs = t)) := by
  induction l with
  | nil =>
    simp only [List.orderedInsert_nil, List.filter]
    by_cases h : a.timestampMs = t <;> simp [h]
  | cons b l ih =>
    by_cases hab : tsle a b
    · rw [List.orderedInsert_of_le _ _ hab]
      by_cases h : a.timestampMs = t <;> simp [List.filter_cons, h]
    · have hba : b.timestampMs < a.timestampMs := by
        have h2 := (IsTotal.total (r := tsle) a b).resolve_left hab
        unfold tsle at hab h2
        omega
      simp only [List.orderedInsert, if_neg hab, List.filter_cons]
      simp only [ih hs.of_cons]
      by_cases h : a.timestampMs = t
      · have hbt : ¬ b.timestampMs = t := by omega
        simp [h, hbt]
      · by_cases hbt : b.timestampMs = t <;> simp [h, hbt]

theorem filter_insertionSort_key (t : Int) (l : List Location) :
    (l.insertionSort tsle).filter (fun x => decide (x.timestampMs = t)) =
      l.filter (fun x => decide (x.timestampMs = t)) := by
  induction l with
  | nil => rfl
  | cons a l ih =>
    have hs : (l.insertionSort tsle).Sorted tsle := List.sorted_insertionSort tsle l
    simp only [List.insertionSort, filter_orderedInsert_key t a _ hs, ih]
    by_cases h : a.timestampMs = t <;> simp [List.filter, h]

/-! ### The timestamp → record dict -/

theorem foldl_dictInsert (l : List Location) (d : Int → Option Location) (t : Int) :
    (l.foldl dictInsert d) t =
      ((l.filter fun x => decide (x.timestampMs = t)).getLast?).or (d t) := by
  induction l generalizing d with
  | nil => simp
  | cons x l ih =>
    simp only [List.foldl_cons]
    by_cases hx : x.timestampMs = t
    · cases hlast : (l.filter fun y => decide (y.timestampMs = t)).getLast? with
      | none =>
        have hnil : (l.filter fun y => decide (y.timestampMs = t)) = [] :=
          List.getLast?_eq_none_iff.mp hlast
        simp [ih, hnil, List.filter_cons, hx, dictInsert]
      | some y =>
        rcases List.eq_nil_or_concat (l.filter fun y => decide (y.timestampMs = t))
          with hnil | ⟨l', z, hlz⟩
        · rw [hnil] at hlast; simp at hlast
        · rw [List.concat_eq_append] at hlz
          have hcons2 : (x :: l).filter (fun y => decide (y.timestampMs = t)) =
              (x :: l') ++ [z] := by
            simp [List.filter_cons, hx, hlz]
          rw [ih, hlz, List.getLast?_concat, hcons2, List.getLast?_concat]
          simp
    · have hxt : ¬ (t = x.timestampMs) := fun hh => hx hh.symm
      simp [ih, List.filter_cons, hx, dictInsert, hxt]

theorem location_dict_eq_getLast (l : List Location) (t : Int) :
    location_dict l t = (l.filter fun x => decide (x.timestampMs = t)).getLast? := by
  rw [location_dict, foldl_dictInsert]
  simp

theorem location_dict_mem (l : List Location) (t : Int) (ht : t ∈ extract_timestamps l) :
    ∃ r, location_dict l t = some r ∧ r ∈ l ∧ r.timestampMs = t := by
  rw [location_dict_eq_getLast]
  obtain ⟨x, hx, hxt⟩ := List.mem_map.mp ht
  have hne : (l.filter fun y => decide (y.timestampMs = t)) ≠ [] := by
    intro hnil
    have : x ∈ l.filter fun y => decide (y.timestampMs = t) :=
      List.mem_filter.mpr ⟨hx, by simp [hxt]⟩
    rw [hnil] at this
    simp at this
  rcases List.eq_nil_or_concat (l.filter fun y => decide (y.timestampMs = t))
    with hnil | ⟨l', z, hlz⟩
  · exact absurd hnil hne
  · rw [List.concat_eq_append] at hlz
    refine ⟨z, by rw [hlz, List.getLast?_concat], ?_, ?_⟩
    · have : z ∈ l.filter fun y => decide (y.timestampMs = t) := by
        rw [hlz]; simp
      exact (List.mem_filter.mp this).1
    · have : z ∈ l.filter fun y => decide (y.timestampMs = t) := by
        rw [hlz]; simp
      simpa using (List.mem_filter.mp this).2

/-! ### The binary-search loop -/

theorem sorted_getD_mono {l : List Int} (hs : l.Sorted (· ≤ ·)) {i j : Nat}
    (hij : i ≤ j) (hj : j < l.length) : l.getD i 0 ≤ l.getD j 0 := by
  rcases Nat.eq_or_lt_of_le hij with rfl | hlt
  · exact le_refl _
  · have hi : i < l.length := lt_trans hlt hj
    rw [List.getD_eq_getElem _ _ hi, List.getD_eq_getElem _ _ hj]
    exact List.pairwise_iff_getElem.mp hs i j hi hj hlt

theorem bisectLeftGo_spec (a : List Int) (x : Int) (hs : a.Sorted (· ≤ ·)) :
    ∀ fuel lo hi, hi - lo ≤ fuel → lo ≤ hi → hi ≤ a.length →
      (∀ j, j < lo → a.getD j 0 < x) →
      (∀ j, hi ≤ j → j < a.length → x ≤ a.getD j 0) →
      lo ≤ bisectLeftGo a x fuel lo hi ∧ bisectLeftGo a x fuel lo hi ≤ hi ∧
        (∀ j, j < bisectLeftGo a x fuel lo hi → a.getD j 0 < x) ∧
        (∀ j, bisectLeftGo a x fuel lo hi ≤ j → j < a.length → x ≤ a.getD j 0) := by
  intro fuel
  induction fuel with
  | zero =>
    intro lo hi hfuel hlohi hhi hpre hpost
    have : lo = hi := by omega
    subst this
    exact ⟨le_refl _, le_refl _, hpre, hpost⟩
  | succ fuel ih =>
    intro lo hi hfuel hlohi hhi hpre hpost
    have hunf : bisectLeftGo a x (fuel + 1) lo hi =
        if lo < hi then
          (if a.getD ((lo + hi) / 2) 0 < x then bisectLeftGo a x fuel ((lo + hi) / 2 + 1) hi
           else bisectLeftGo a x fuel lo ((lo + hi) / 2))
        else lo := rfl
    by_cases hlt : lo < hi
    · have hmid : lo ≤ (lo + hi) / 2 ∧ (lo + hi) / 2 < hi := by omega
      by_cases hcmp : a.getD ((lo + hi) / 2) 0 < x
      · have hrec := ih ((lo + hi) / 2 + 1) hi (by omega) (by omega) hhi
          (fun j hj => lt_of_le_of_lt
            (sorted_getD_mono hs (by omega) (by omega)) hcmp)
          hpost
        rw [hunf, if_pos hlt, if_pos hcmp]
        exact ⟨le_trans (by omega) hrec.1, hrec.2.1, hrec.2.2.1, hrec.2.2.2⟩
      · have hge : x ≤ a.getD ((lo + hi) / 2) 0 := le_of_not_lt hcmp
        have hrec := ih lo ((lo + hi) / 2) (by omega) (by omega) (by omega) hpre
          (fun j hj hjl => le_trans hge (sorted_getD_mono hs hj hjl))
        rw [hunf, if_pos hlt, if_neg hcmp]
        exact ⟨hrec.1, le_trans hrec.2.1 (by omega), hrec.2.2.1, hrec.2.2.2⟩
    · have : lo = hi := by omega
      subst this
      rw [hunf, if_neg hlt]
      exact ⟨le_refl _, le_refl _, hpre, hpost⟩

theorem bisect_left_spec (a : List Int) (x : Int) (hs : a.Sorted (· ≤ ·)) :
    bisect_left a x ≤ a.length ∧
      (∀ j, j < bisect_left a x → a.getD j 0 < x) ∧
      (∀ j, bisect_left a x ≤ j → j < a.length → x ≤ a.getD j 0) := by
  have h := bisectLeftGo_spec a x hs (a.length + 1) 0 a.length (by omega) (by omega)
    (le_refl _) (fun j hj => absurd hj (Nat.not_lt_zero j)) (fun j hj hjl => absurd hjl (by omega))
  exact ⟨h.2.1, h.2.2⟩

/-! ### Python `min` with a key -/

theorem pyMinFold_spec (key : Int → Int) (l : List Int) :
    ∀ acc : Int,
      (l.foldl (fun acc y => if key y < key acc then y else acc) acc = acc ∧
        ∀ y ∈ l, key acc ≤ key y) ∨
      (∃ l₁ l₂, l = l₁ ++ l.foldl (fun acc y => if key y < key acc then y else acc) acc :: l₂ ∧
        key (l.foldl (fun acc y => if key y < key acc then y else acc) acc) < key acc ∧
        (∀ y ∈ l₁, key (l.foldl (fun acc y => if key y < key acc then y else acc) acc) < key y) ∧
        (∀ y ∈ l₂, key (l.foldl (fun acc y => if key y < key acc then y else acc) acc) ≤ key y)) := by
  induction l with
  | nil => intro acc; left; exact ⟨rfl, by simp⟩
  | cons z l ih =>
    intro acc
    by_cases hz : key z < key acc
    · simp only [List.foldl_cons, if_pos hz]
      rcases ih z with ⟨heq, hall⟩ | ⟨l₁, l₂, hdec, hlt, h₁, h₂⟩
      · right
        exact ⟨[], l, by simp [heq], by rw [heq]; exact hz, by simp, by rw [heq]; exact hall⟩
      · right
        refine ⟨z :: l₁, l₂, by rw [List.cons_append, ← hdec], lt_trans hlt hz, ?_, h₂⟩
        intro y hy
        rcases List.mem_cons.mp hy with rfl | hy'
        · exact hlt
        · exact h₁ y hy'
    · simp only [List.foldl_cons, if_neg hz]
      rcases ih acc with ⟨heq, hall⟩ | ⟨l₁, l₂, hdec, hlt, h₁, h₂⟩
      · left
        refine ⟨heq, ?_⟩
        intro y hy
        rcases List.mem_cons.mp hy with rfl | hy'
        · exact le_of_not_lt hz
        · exact hall y hy'
      · right
        refine ⟨z :: l₁, l₂, by rw [List.cons_append, ← hdec], hlt, ?_, h₂⟩
        intro y hy
        rcases List.mem_cons.mp hy with rfl | hy'
        · exact lt_of_lt_of_le hlt (le_of_not_lt hz)
        · exact h₁ y hy'

theorem pyMin_spec (key : Int → Int) (x : Int) (xs : List Int) :
    ∃ m, pyMin key (x :: xs) = some m ∧
      ∃ l₁ l₂, x :: xs = l₁ ++ m :: l₂ ∧
        (∀ y ∈ l₁, key m < key y) ∧ (∀ y ∈ l₂, key m ≤ key y) := by
  rcases pyMinFold_spec key xs x with ⟨heq, hall⟩ | ⟨l₁, l₂, hdec, _hlt, h₁, h₂⟩
  · exact ⟨x, by rw [pyMin, heq], [], xs, by simp, by simp, hall⟩
  · refine ⟨_, rfl, x :: l₁, l₂, ?_, ?_, h₂⟩
    · show x :: xs = x :: (l₁ ++ _ :: l₂)
      rw [← hdec]
    intro y hy
    rcases List.mem_cons.mp hy with rfl | hy'
    · exact _hlt
    · exact h₁ y hy'

/-! ### Construction inversion and invariants -/

theorem normalizeRecords_ok_inv {raw : List RawLocation} {l : List Location}
    (h : normalizeRecords raw = .ok l) :
    (∀ r ∈ raw, r.timestampMs ≠ none) ∧ l = raw.map normD := by
  induction raw generalizing l with
  | nil =>
    rw [normalizeRecords] at h
    injection h with h
    simp [h.symm]
  | cons r rest ih =>
    cases hts : r.timestampMs with
    | none => rw [normalizeRecords, hts] at h; cases h
    | some ts =>
      rw [normalizeRecords, hts] at h
      cases hrest : normalizeRecords rest with
      | error e => rw [hrest] at h; cases h
      | ok l' =>
        rw [hrest] at h
        injection h with h
        obtain ⟨hall, hmap⟩ := ih hrest
        refine ⟨?_, ?_⟩
        · intro x hx
          rcases List.mem_cons.mp hx with rfl | hx'
          · rw [hts]; exact Option.some_ne_none ts
          · exact hall x hx'
        · rw [← h, hmap]
          simp [normD, hts]

theorem make_ok_inv {raw : List RawLocation} {h : LocationHistory}
    (hmk : LocationHistory.make raw = .ok h) :
    (∀ r ∈ raw, r.timestampMs ≠ none) ∧
      h.location_history = (raw.map normD).insertionSort tsle ∧
      h.timestamps = extract_timestamps h.location_history ∧
      h.locdict = location_dict h.location_history := by
  rw [LocationHistory.make, load_location_history] at hmk
  cases hnr : normalizeRecords raw with
  | error e => rw [hnr] at hmk; cases hmk
  | ok l =>
    rw [hnr] at hmk
    obtain ⟨hall, rfl⟩ := normalizeRecords_ok_inv hnr
    injection hmk with hmk
    rw [← hmk]
    exact ⟨hall, rfl, rfl, rfl⟩

theorem timestamps_sorted_of_history (l : List Location) (hs : l.Sorted tsle) :
    (extract_timestamps l).Sorted (· ≤ ·) := by
  rw [extract_timestamps]
  exact List.pairwise_map.mpr hs

theorem make_sorted {raw : List RawLocation} {h : LocationHistory}
    (hmk : LocationHistory.make raw = .ok h) :
    h.location_history.Sorted tsle ∧ h.timestamps.Sorted (· ≤ ·) := by
  obtain ⟨_, hlh, hts, _⟩ := make_ok_inv hmk
  have h1 : h.location_history.Sorted tsle := by
    rw [hlh]; exact List.sorted_insertionSort tsle _
  exact ⟨h1, by rw [hts]; exact timestamps_sorted_of_history _ h1⟩

/-! ### The candidate window -/

theorem pySlice_subset (l : List Int) (a b : Nat) : pySlice l a b ⊆ l :=
  (List.take_subset _ _).trans (List.drop_subset _ _)

theorem pySlice_getElem_mem {l : List Int} {a b idx : Nat} (h1 : idx < b - a)
    (h2 : a + idx < l.length) : l.getD (a + idx) 0 ∈ pySlice l a b := by
  rw [pySlice]
  have hlen : idx < ((l.drop a).take (b - a)).length := by
    rw [List.length_take, List.length_drop]
    omega
  have hval : ((l.drop a).take (b - a)).get ⟨idx, hlen⟩ = l.getD (a + idx) 0 := by
    rw [List.get_eq_getElem, List.getElem_take, List.getElem_drop, List.getD_eq_getElem _ _ h2]
  rw [← hval]
  exact List.get_mem _ _ _

theorem pyMin_mem_min {key : Int → Int} {l : List Int} {m : Int}
    (hm : pyMin key l = some m)
    {l₁ l₂ : List Int} (hdec : l = l₁ ++ m :: l₂)
    (h₁ : ∀ y ∈ l₁, key m < key y) (h₂ : ∀ y ∈ l₂, key m ≤ key y) :
    m ∈ l ∧ ∀ y ∈ l, key m ≤ key y := by
  constructor
  · rw [hdec]; simp
  · intro y hy
    rw [hdec] at hy
    rcases List.mem_append.mp hy with hy' | hy'
    · exact le_of_lt (h₁ y hy')
    · rcases List.mem_cons.mp hy' with rfl | hy''
      · exact le_refl _
      · exact h₂ y hy''

/-! ### The 3-wide window around the insertion point covers the global minimum -/

theorem window_min_global {ts : List Int} (hs : ts.Sorted (· ≤ ·)) (q : Int) {m : Int}
    (hmem : ∀ y ∈ pySlice ts (bisect_left ts q - 1) (bisect_left ts q + 2), |q - m| ≤ |q - y|) :
    ∀ s ∈ ts, |q - m| ≤ |q - s| := by
  obtain ⟨hile, hpre, hpost⟩ := bisect_left_spec ts q hs
  set i := bisect_left ts q with hidef
  intro s hsmem
  obtain ⟨j, hj, rfl⟩ := List.mem_iff_getElem.mp hsmem
  rw [← List.getD_eq_getElem ts 0 hj]
  by_cases hji : j < i
  · have hidx : (i - 1) + 0 < ts.length := by omega
    have hcand : ts.getD ((i - 1) + 0) 0 ∈ pySlice ts (i - 1) (i + 2) :=
      pySlice_getElem_mem (by omega) hidx
    have h1 : |q - m| ≤ |q - ts.getD (i - 1) 0| := by
      have := hmem _ hcand
      simpa using this
    have hlt1 : ts.getD (i - 1) 0 < q := hpre (i - 1) (by omega)
    have hltj : ts.getD j 0 < q := hpre j hji
    have hmono : ts.getD j 0 ≤ ts.getD (i - 1) 0 := sorted_getD_mono hs (by omega) (by omega)
    rw [abs_of_nonneg (by omega : (0:ℤ) ≤ q - ts.getD (i - 1) 0)] at h1
    rw [abs_of_nonneg (by omega : (0:ℤ) ≤ q - ts.getD j 0)]
    exact le_trans h1 (by omega)
  · have hin : i < ts.length := by omega
    have hidx : (i - 1) + (i - (i - 1)) < ts.length := by omega
    have hcand : ts.getD ((i - 1) + (i - (i - 1))) 0 ∈ pySlice ts (i - 1) (i + 2) :=
      pySlice_getElem_mem (by omega) hidx
    have heq : (i - 1) + (i - (i - 1)) = i := by omega
    rw [heq] at hcand
    have h1 : |q - m| ≤ |q - ts.getD i 0| := hmem _ hcand
    have hge1 : q ≤ ts.getD i 0 := hpost i (le_refl _) hin
    have hgej : q ≤ ts.getD j 0 := hpost j (by omega) hj
    have hmono : ts.getD i 0 ≤ ts.getD j 0 := sorted_getD_mono hs (by omega) hj
    rw [abs_of_nonpos (by omega : q - ts.getD i 0 ≤ 0)] at h1
    rw [abs_of_nonpos (by omega : q - ts.getD j 0 ≤ 0)]
    exact le_trans h1 (by omega)

theorem nearest_location_from_timestamp_eq (h : LocationHistory) (q : Int) :
    h.nearest_location_from_timestamp q =
      pyMin (fun t => |q - t|)
        (pySlice h.timestamps (bisect_left h.timestamps q - 1)
          (bisect_left h.timestamps q + 2)) := rfl

theorem window_ne_nil {ts : List Int} (hs : ts.Sorted (· ≤ ·)) (q : Int) (hne : ts ≠ []) :
    pySlice ts (bisect_left ts q - 1) (bisect_left ts q + 2) ≠ [] := by
  obtain ⟨hile, _, _⟩ := bisect_left_spec ts q hs
  have hlen : 0 < ts.length := List.length_pos.mpr hne
  intro hnil
  have hl := congrArg List.length hnil
  rw [pySlice, List.length_take, List.length_drop] at hl
  simp at hl
  omega

/-- Master specification of `nearest_location` on a constructed non-empty
index: it succeeds, returns a record of the index whose timestamp is a global
minimizer of absolute distance to the query, and the returned timestamp is
the first minimizer (in left-to-right order) of the 3-wide candidate window
around the binary-search insertion point. -/
theorem nearest_location_spec {raw : List RawLocation} {h : LocationHistory}
    (hmk : LocationHistory.make raw = .ok h) (hne : h.location_history ≠ []) (q : Int) :
    ∃ m rec,
      h.nearest_location_from_timestamp q = some m ∧
      h.nearest_location q = .ok (rec, ((|rec.timestampMs - q| : ℤ) : ℚ) / 1000) ∧
      rec.timestampMs = m ∧ rec ∈ h.location_history ∧ h.locdict m = some rec ∧
      (∀ r ∈ h.location_history, |rec.timestampMs - q| ≤ |r.timestampMs - q|) ∧
      ∃ w₁ w₂,
        pySlice h.timestamps (bisect_left h.timestamps q - 1)
            (bisect_left h.timestamps q + 2) = w₁ ++ m :: w₂ ∧
          (∀ y ∈ w₁, |q - m| < |q - y|) ∧ (∀ y ∈ w₂, |q - m| ≤ |q - y|) := by
  obtain ⟨hall, hlh, hts, hdict⟩ := make_ok_inv hmk
  obtain ⟨hsortl, hsortt⟩ := make_sorted hmk
  have htsne : h.timestamps ≠ [] := by
    rw [hts, extract_timestamps]
    simpa using hne
  obtain ⟨wx, wxs, hw⟩ := List.exists_cons_of_ne_nil (window_ne_nil hsortt q htsne)
  obtain ⟨m, hm, w₁, w₂, hdec, h₁, h₂⟩ := pyMin_spec (fun t => |q - t|) wx wxs
  rw [← hw] at hm hdec
  have hmmem := pyMin_mem_min hm hdec h₁ h₂
  have hmts : m ∈ h.timestamps := pySlice_subset _ _ _ hmmem.1
  have hglobal : ∀ s ∈ h.timestamps, |q - m| ≤ |q - s| := window_min_global hsortt q hmmem.2
  have hmext : m ∈ extract_timestamps h.location_history := by rw [← hts]; exact hmts
  obtain ⟨rec, hrecdict, hrecmem, hrects⟩ := location_dict_mem _ m hmext
  have hm' : h.nearest_location_from_timestamp q = some m := by
    rw [nearest_location_from_timestamp_eq]
    exact hm
  have hnl : h.nearest_location q = .ok (rec, ((|rec.timestampMs - q| : ℤ) : ℚ) / 1000) := by
    rw [LocationHistory.nearest_location, hm', hdict]
    simp only [hrecdict]
  refine ⟨m, rec, hm', hnl, hrects, hrecmem, by rw [hdict]; exact hrecdict, ?_,
    w₁, w₂, hdec, h₁, h₂⟩
  intro r hr
  have hrts : r.timestampMs ∈ h.timestamps := by
    rw [hts, extract_timestamps]
    exact List.mem_map_of_mem _ hr
  calc |rec.timestampMs - q| = |q - m| := by rw [hrects, abs_sub_comm]
    _ ≤ |q - r.timestampMs| := hglobal _ hrts
    _ = |r.timestampMs - q| := abs_sub_comm _ _

/-! ### The matcher's threshold decision and the truncated delta -/

theorem add_location_eq {h : LocationHistory} {rec : Location} {d : ℚ} {q : Int}
    (hn : h.nearest_location q = .ok (rec, d)) (T : Int) :
    add_location_to_photo h q T =
      if pyInt d ≥ T then .ok none else .ok (some (rec, pyInt d)) := by
  rw [add_location_to_photo, hn]

theorem pyInt_natAbs_div (a : ℤ) (ha : 0 ≤ a) :
    pyInt ((a : ℚ) / 1000) = ((a.toNat / 1000 : ℕ) : ℤ) := by
  have hnn : (0:ℚ) ≤ (a : ℚ) / 1000 := by positivity
  rw [pyInt, if_pos hnn]
  have hcast : ((a : ℤ) : ℚ) = ((a.toNat : ℕ) : ℚ) := by
    rw [← Int.toNat_of_nonneg ha]
    push_cast
    rfl
  rw [hcast, show ((1000:ℚ)) = ((1000:ℕ) : ℚ) from by norm_num,
    Rat.floor_natCast_div_natCast]
  exact (Int.natCast_div _ _).symm

theorem make_length {raw : List RawLocation} {h : LocationHistory}
    (hmk : LocationHistory.make raw = .ok h) :
    h.location_history.length = raw.length ∧ h.timestamps.length = raw.length := by
  obtain ⟨_, hlh, hts, _⟩ := make_ok_inv hmk
  have h1 : h.location_history.length = raw.length := by
    rw [hlh, (List.perm_insertionSort tsle _).length_eq, List.length_map]
  exact ⟨h1, by rw [hts, extract_timestamps, List.length_map, h1]⟩

/-! ### Uniqueness of the sorted sequence when timestamps are pairwise distinct -/

theorem sorted_perm_nodupkeys_eq :
    ∀ {l₁ l₂ : List Location}, l₁.Perm l₂ → l₁.Sorted tsle → l₂.Sorted tsle →
      (l₁.map (·.timestampMs)).Nodup → l₁ = l₂
  | [], l₂, hp, _, _, _ => (hp.nil_eq).symm ▸ rfl
  | a :: t₁, l₂, hp, hs₁, hs₂, hnd => by
    have hl₂ne : l₂ ≠ [] := by
      intro hnil
      rw [hnil] at hp
      exact List.cons_ne_nil a t₁ hp.eq_nil
    obtain ⟨b, t₂, rfl⟩ := List.exists_cons_of_ne_nil hl₂ne
    have hab : a = b := by
      have hamem : a ∈ b :: t₂ := hp.mem_iff.mp (List.mem_cons_self a t₁)
      have hbmem : b ∈ a :: t₁ := hp.mem_iff.mpr (List.mem_cons_self b t₂)
      rcases List.mem_cons.mp hamem with heq | hat₂
      · exact heq
      rcases List.mem_cons.mp hbmem with heq | hbt₁
      · exact heq.symm
      have h1 : tsle a b := List.rel_of_sorted_cons hs₁ b hbt₁
      have h2 : tsle b a := List.rel_of_sorted_cons hs₂ a hat₂
      have hkey : a.timestampMs = b.timestampMs := le_antisymm h1 h2
      exact List.inj_on_of_nodup_map hnd (List.mem_cons_self a t₁)
        (List.mem_cons.mpr (Or.inr hbt₁)) hkey
    subst hab
    have ht : t₁ = t₂ :=
      sorted_perm_nodupkeys_eq hp.cons_inv hs₁.of_cons hs₂.of_cons
        (by rw [List.map_cons] at hnd; exact hnd.of_cons)
    rw [ht]

/-! ### Concrete inputs used in the witnesses and counterexamples -/

def rawA : List RawLocation :=
  [⟨some 2000, none, none⟩, ⟨some 1000, none, none⟩]

def histA : LocationHistory where
  location_history := [⟨1000, none, none⟩, ⟨2000, none, none⟩]
  timestamps := [1000, 2000]
  locdict := location_dict [⟨1000, none, none⟩, ⟨2000, none, none⟩]

def rawBad : List RawLocation :=
  [⟨some 5, none, none⟩, ⟨none, some 1, none⟩]

def rawDup : List RawLocation :=
  [⟨some 1000, none, none⟩, ⟨some 1000, some 77, none⟩]

def histDup : LocationHistory where
  location_history :=
    [⟨1000, none, none⟩, ⟨1000, some (((77 : ℤ) : ℚ) / 10000000), none⟩]
  timestamps := [1000, 1000]
  locdict :=
    location_dict [⟨1000, none, none⟩, ⟨1000, some (((77 : ℤ) : ℚ) / 10000000), none⟩]

def rawDupPerm : List RawLocation :=
  [⟨some 1000, some 77, none⟩, ⟨some 1000, none, none⟩]

def histDupPerm : LocationHistory where
  location_history :=
    [⟨1000, some (((77 : ℤ) : ℚ) / 10000000), none⟩, ⟨1000, none, none⟩]
  timestamps := [1000, 1000]
  locdict :=
    location_dict [⟨1000, some (((77 : ℤ) : ℚ) / 10000000), none⟩, ⟨1000, none, none⟩]

def histEmpty : LocationHistory where
  location_history := []
  timestamps := []
  locdict := location_dict []

def rawAPerm : List RawLocation :=
  [⟨some 1000, none, none⟩, ⟨some 2000, none, none⟩]

def rawC9 : List RawLocation :=
  [⟨some 0, none, none⟩, ⟨some 2000, some 50000000, some 60000000⟩]

def histC9 : LocationHistory where
  location_history :=
    [⟨0, none, none⟩,
     ⟨2000, some (((50000000 : ℤ) : ℚ) / 10000000), some (((60000000 : ℤ) : ℚ) / 10000000)⟩]
  timestamps := [0, 2000]
  locdict :=
    location_dict
      [⟨0, none, none⟩,
       ⟨2000, some (((50000000 : ℤ) : ℚ) / 10000000), some (((60000000 : ℤ) : ℚ) / 10000000)⟩]

/-! ### Claims -/

/-- C2: after construction from any raw input collection, the index's record
sequence is sorted by timestamp in non-decreasing numeric order, and the
parallel timestamp array (built from that sequence) is likewise sorted
non-decreasing. -/
theorem claim_C2_sorted_invariant {raw : List RawLocation} {h : LocationHistory}
    (hmk : LocationHistory.make raw = .ok h) :
    h.location_history.Pairwise (fun a b => a.timestampMs ≤ b.timestampMs) ∧
      h.timestamps.Pairwise (· ≤ ·) :=
  make_sorted hmk

theorem claim_C2_witness :
    LocationHistory.make rawA = .ok histA ∧
      (histA.location_history.Pairwise (fun a b => a.timestampMs ≤ b.timestampMs) ∧
        histA.timestamps.Pairwise (· ≤ ·)) :=
  ⟨rfl, claim_C2_sorted_invariant
    (show LocationHistory.make rawA = .ok histA from rfl)⟩

/-- C4: if any raw input record lacks the timestamp field, index construction
fails with the malformed-input error and no index value is produced
(all-or-nothing). -/
theorem claim_C4_malformed (raw : List RawLocation)
    (hmiss : ∃ r ∈ raw, r.timestampMs = none) :
    LocationHistory.make raw = .error .malformedInput ∧
      ∀ h : LocationHistory, LocationHistory.make raw ≠ .ok h := by
  have h1 : LocationHistory.make raw = .error .malformedInput := by
    rw [LocationHistory.make, load_location_history, normalizeRecords_error raw hmiss]
    rfl
  refine ⟨h1, fun h hcontra => ?_⟩
  rw [h1] at hcontra
  cases hcontra

theorem claim_C4_witness :
    (∃ r ∈ rawBad, r.timestampMs = none) ∧
      (LocationHistory.make rawBad = .error .malformedInput ∧
        ∀ h : LocationHistory, LocationHistory.make rawBad ≠ .ok h) :=
  ⟨⟨⟨none, some 1, none⟩, by decide, rfl⟩,
    claim_C4_malformed rawBad ⟨⟨none, some 1, none⟩, by decide, rfl⟩⟩

/-- C5: every `nearest` or `match` call on the empty index (zero records)
fails with the empty-index error; it is never silently treated as a no-match
result. -/
theorem claim_C5_empty_index {raw : List RawLocation} {h : LocationHistory}
    (hmk : LocationHistory.make raw = .ok h) (hempty : h.location_history = [])
    (q T : Int) :
    h.nearest_location q = .error .emptyIndex ∧
      add_location_to_photo h q T = .error .emptyIndex := by
  obtain ⟨_, _, hts, _⟩ := make_ok_inv hmk
  have hts0 : h.timestamps = [] := by rw [hts, hempty]; rfl
  have h1 : h.nearest_location q = .error .emptyIndex := by
    have hnone : h.nearest_location_from_timestamp q = none := by
      rw [nearest_location_from_timestamp_eq, hts0]
      rfl
    rw [LocationHistory.nearest_location, hnone]
  exact ⟨h1, by rw [add_location_to_photo, h1]⟩

theorem claim_C5_witness :
    LocationHistory.make [] = .ok histEmpty ∧ histEmpty.location_history = [] ∧
      (histEmpty.nearest_location 0 = .error .emptyIndex ∧
        add_location_to_photo histEmpty 0 60 = .error .emptyIndex) :=
  ⟨rfl, rfl,
    claim_C5_empty_index (show LocationHistory.make [] = .ok histEmpty from rfl) rfl 0 60⟩

/-- C10: for every accepted raw input collection, the length of the resulting
index equals the number of raw input records — records with colliding
timestamps are all kept in the record sequence and the timestamp array. -/
theorem claim_C10_length {raw : List RawLocation} {h : LocationHistory}
    (hmk : LocationHistory.make raw = .ok h) :
    h.len = raw.length ∧ h.timestamps.length = raw.length := by
  rw [LocationHistory.len]
  exact make_length hmk

theorem claim_C10_witness :
    LocationHistory.make rawDup = .ok histDup ∧
      (histDup.len = rawDup.length ∧ histDup.timestamps.length = rawDup.length) :=
  ⟨rfl, claim_C10_length (show LocationHistory.make rawDup = .ok histDup from rfl)⟩

/-- C1: for every non-empty constructed index and every integer query
timestamp, `nearest` returns a record whose timestamp has minimal absolute
distance to the query among all records of the index; the returned timestamp
is the first minimizer, in left-to-right order, of the 3-wide window around
the binary-search insertion point (every candidate examined before it is
strictly farther, so an equidistant tie is resolved to the candidate examined
first). -/
theorem claim_C1_nearest_minimal {raw : List RawLocation} {h : LocationHistory}
    (hmk : LocationHistory.make raw = .ok h) (hne : h.location_history ≠ []) (q : Int) :
    ∃ m rec d,
      h.nearest_location q = .ok (rec, d) ∧ rec ∈ h.location_history ∧
      (∀ r ∈ h.location_history, |rec.timestampMs - q| ≤ |r.timestampMs - q|) ∧
      h.nearest_location_from_timestamp q = some m ∧ rec.timestampMs = m ∧
      ∃ w₁ w₂,
        pySlice h.timestamps (bisect_left h.timestamps q - 1)
            (bisect_left h.timestamps q + 2) = w₁ ++ m :: w₂ ∧
          (∀ y ∈ w₁, |q - m| < |q - y|) ∧ (∀ y ∈ w₂, |q - m| ≤ |q - y|) := by
  obtain ⟨m, rec, hm, hnl, hrects, hrecmem, _, hmin, w₁, w₂, hdec, h₁, h₂⟩ :=
    nearest_location_spec hmk hne q
  exact ⟨m, rec, _, hnl, hrecmem, hmin, hm, hrects, w₁, w₂, hdec, h₁, h₂⟩

theorem claim_C1_witness :
    LocationHistory.make rawA = .ok histA ∧ histA.location_history ≠ [] ∧
      (∃ m rec d,
        histA.nearest_location 1500 = .ok (rec, d) ∧ rec ∈ histA.location_history ∧
        (∀ r ∈ histA.location_history, |rec.timestampMs - 1500| ≤ |r.timestampMs - 1500|) ∧
        histA.nearest_location_from_timestamp 1500 = some m ∧ rec.timestampMs = m ∧
        ∃ w₁ w₂,
          pySlice histA.timestamps (bisect_left histA.timestamps 1500 - 1)
              (bisect_left histA.timestamps 1500 + 2) = w₁ ++ m :: w₂ ∧
            (∀ y ∈ w₁, |(1500 : ℤ) - m| < |1500 - y|) ∧
            (∀ y ∈ w₂, |(1500 : ℤ) - m| ≤ |1500 - y|)) :=
  ⟨rfl, by decide,
    claim_C1_nearest_minimal (show LocationHistory.make rawA = .ok histA from rfl)
      (by decide) 1500⟩

/-- C3: for every non-empty constructed index, event timestamp, and threshold
`T`, the match operation returns a positive result iff the truncated
whole-seconds delta is strictly less than `T`; a delta of exactly `T` yields
no-match, of `T - 1` yields match, of `T + 1` yields no-match, and a no-match
is the normal value `.ok none`, not an error. -/
theorem claim_C3_threshold {raw : List RawLocation} {h : LocationHistory}
    (hmk : LocationHistory.make raw = .ok h) (hne : h.location_history ≠ [])
    (q T : Int) :
    ∃ rec d, h.nearest_location q = .ok (rec, d) ∧
      ((∃ p, add_location_to_photo h q T = .ok (some p)) ↔ pyInt d < T) ∧
      add_location_to_photo h q (pyInt d) = .ok none ∧
      add_location_to_photo h q (pyInt d + 1) = .ok (some (rec, pyInt d)) ∧
      add_location_to_photo h q (pyInt d - 1) = .ok none := by
  obtain ⟨m, rec, hm, hnl, hrest⟩ := nearest_location_spec hmk hne q
  refine ⟨rec, ((|rec.timestampMs - q| : ℤ) : ℚ) / 1000, hnl, ?_, ?_, ?_, ?_⟩
  · constructor
    · rintro ⟨p, hp⟩
      rw [add_location_eq hnl T] at hp
      by_cases hge : pyInt (((|rec.timestampMs - q| : ℤ) : ℚ) / 1000) ≥ T
      · rw [if_pos hge] at hp
        cases hp
      · exact lt_of_not_ge hge
    · intro hlt
      rw [add_location_eq hnl T, if_neg (by omega)]
      exact ⟨_, rfl⟩
  · rw [add_location_eq hnl _, if_pos (le_refl _)]
  · rw [add_location_eq hnl _, if_neg (by omega)]
  · rw [add_location_eq hnl _, if_pos (by omega)]

theorem claim_C3_witness :
    LocationHistory.make rawA = .ok histA ∧ histA.location_history ≠ [] ∧
      (∃ rec d, histA.nearest_location 1400 = .ok (rec, d) ∧
        ((∃ p, add_location_to_photo histA 1400 60 = .ok (some p)) ↔ pyInt d < 60) ∧
        add_location_to_photo histA 1400 (pyInt d) = .ok none ∧
        add_location_to_photo histA 1400 (pyInt d + 1) = .ok (some (rec, pyInt d)) ∧
        add_location_to_photo histA 1400 (pyInt d - 1) = .ok none) :=
  ⟨rfl, by decide,
    claim_C3_threshold (show LocationHistory.make rawA = .ok histA from rfl)
      (by decide) 1400 60⟩

/-- C6: for every non-empty constructed index and query, the rational delta
returned by `nearest_location` is exactly the absolute millisecond difference
of the chosen record's timestamp and the query divided by 1000, and the
whole-seconds value obtained from it by Python `int()` (as done before the
threshold comparison) is that millisecond difference divided by 1000 with
integer truncation toward zero — truncating, not rounding. -/
theorem claim_C6_truncation {raw : List RawLocation} {h : LocationHistory}
    (hmk : LocationHistory.make raw = .ok h) (hne : h.location_history ≠ [])
    (q : Int) :
    ∃ rec d, h.nearest_location q = .ok (rec, d) ∧
      d = ((|rec.timestampMs - q| : ℤ) : ℚ) / 1000 ∧
      pyInt d = (((|rec.timestampMs - q|).toNat / 1000 : ℕ) : ℤ) := by
  obtain ⟨m, rec, hm, hnl, hrest⟩ := nearest_location_spec hmk hne q
  exact ⟨rec, _, hnl, rfl, pyInt_natAbs_div _ (abs_nonneg _)⟩

theorem claim_C6_witness :
    LocationHistory.make rawA = .ok histA ∧ histA.location_history ≠ [] ∧
      (∃ rec d, histA.nearest_location 1500 = .ok (rec, d) ∧
        d = ((|rec.timestampMs - 1500| : ℤ) : ℚ) / 1000 ∧
        pyInt d = (((|rec.timestampMs - 1500|).toNat / 1000 : ℕ) : ℤ)) :=
  ⟨rfl, by decide,
    claim_C6_truncation (show LocationHistory.make rawA = .ok histA from rfl)
      (by decide) 1500⟩

/-- C7: for every input collection containing records that share a timestamp
`t`, querying `nearest` exactly at `t` returns the record that occurred last
in the original input order among those carrying `t` (last-write-wins in the
timestamp → record mapping; the Python dict is built from the stably sorted
sequence, so the input-order-last record survives). -/
theorem claim_C7_last_write_wins {raw : List RawLocation} {h : LocationHistory}
    (hmk : LocationHistory.make raw = .ok h) (t : Int)
    (hdup : (raw.filter fun r => r.timestampMs == some t) ≠ []) :
    ∃ rlast d,
      (raw.filter fun r => r.timestampMs == some t).getLast? = some rlast ∧
      h.nearest_location t = .ok (normD rlast, d) ∧
      (normD rlast).timestampMs = t := by
  obtain ⟨hall, hlh, hts, hdict⟩ := make_ok_inv hmk
  obtain ⟨r0, f0, hf0⟩ := List.exists_cons_of_ne_nil hdup
  have hr0 : r0 ∈ raw.filter fun r => r.timestampMs == some t := by
    rw [hf0]
    exact List.mem_cons_self _ _
  have hr0raw : r0 ∈ raw := (List.mem_filter.mp hr0).1
  have hr0t : r0.timestampMs = some t := eq_of_beq (List.mem_filter.mp hr0).2
  have hrawne : raw ≠ [] := List.ne_nil_of_mem hr0raw
  have hne : h.location_history ≠ [] := by
    intro hnil
    have hlen := (make_length hmk).1
    rw [hnil, List.length_nil] at hlen
    exact hrawne (List.length_eq_zero.mp hlen.symm)
  obtain ⟨m, rec, hm, hnl, hrects, hrecmem, hdictm, hmin, _⟩ :=
    nearest_location_spec hmk hne t
  have hnorm0mem : normD r0 ∈ h.location_history := by
    rw [hlh]
    exact ((List.perm_insertionSort tsle _).mem_iff).mpr
      (List.mem_map_of_mem normD hr0raw)
  have hnorm0t : (normD r0).timestampMs = t := by simp [normD, normLoc, hr0t]
  have hrect : rec.timestampMs = t := by
    have h0 := hmin (normD r0) hnorm0mem
    rw [hnorm0t, sub_self, abs_zero] at h0
    have := abs_nonpos_iff.mp h0
    omega
  have hmt : m = t := hrects.symm.trans hrect
  have hdt : location_dict h.location_history t = some rec := by
    rw [← hdict, ← hmt]
    exact hdictm
  have hfiltmap :
      h.location_history.filter (fun x => decide (x.timestampMs = t)) =
        (raw.filter fun r => r.timestampMs == some t).map normD := by
    rw [hlh, filter_insertionSort_key, List.filter_map]
    congr 1
    apply List.filter_congr
    intro x hx
    obtain ⟨s, hs⟩ := Option.ne_none_iff_exists'.mp (hall x hx)
    by_cases hst : s = t <;> simp [Function.comp, normD, normLoc, hs, hst]
  rw [location_dict_eq_getLast, hfiltmap, List.getLast?_map] at hdt
  obtain ⟨rlast, hrl, hrlnorm⟩ := Option.map_eq_some'.mp hdt
  refine ⟨rlast, ((|rec.timestampMs - t| : ℤ) : ℚ) / 1000, hrl, ?_, ?_⟩
  · rw [hrlnorm]
    exact hnl
  · rw [hrlnorm]
    exact hrect

theorem claim_C7_witness :
    LocationHistory.make rawDup = .ok histDup ∧
      (rawDup.filter fun r => r.timestampMs == some 1000) ≠ [] ∧
      (∃ rlast d,
        (rawDup.filter fun r => r.timestampMs == some 1000).getLast? = some rlast ∧
        histDup.nearest_location 1000 = .ok (normD rlast, d) ∧
        (normD rlast).timestampMs = 1000) :=
  ⟨rfl, by decide,
    claim_C7_last_write_wins (show LocationHistory.make rawDup = .ok histDup from rfl)
      1000 (by decide)⟩

/-- C8 counterexample: the claim fails on the code as stated. Permuting an
input that contains two distinct records sharing a timestamp changes the
constructed sorted record sequence (the stable sort preserves input order on
equal keys) and changes the nearest result at that timestamp (the dict is
last-write-wins), so construction is NOT insensitive to input order for
every raw collection. -/
theorem claim_C8_counterexample :
    rawDupPerm.Perm rawDup ∧
      LocationHistory.make rawDup = .ok histDup ∧
      LocationHistory.make rawDupPerm = .ok histDupPerm ∧
      histDup.location_history ≠ histDupPerm.location_history ∧
      ∃ r₁ d₁ r₂ d₂,
        histDup.nearest_location 1000 = .ok (r₁, d₁) ∧
        histDupPerm.nearest_location 1000 = .ok (r₂, d₂) ∧ r₁ ≠ r₂ :=
  ⟨List.Perm.swap _ _ _, rfl, rfl, by decide, _, _, _, _, rfl, rfl, by decide⟩

/-- C8 (amended): construction is insensitive to input order for raw
collections whose records carry pairwise-distinct timestamps: an index built
from any permutation of such an input has the identical sorted record
sequence, identical timestamp array, and identical `nearest` results for
every query timestamp. (The unamended claim fails when two distinct records
share a timestamp.) -/
theorem claim_C8_amended {raw raw' : List RawLocation} {h h' : LocationHistory}
    (hperm : raw'.Perm raw)
    (hmk : LocationHistory.make raw = .ok h)
    (hmk' : LocationHistory.make raw' = .ok h')
    (hnodup : (raw.map fun r => r.timestampMs).Nodup) :
    h.location_history = h'.location_history ∧ h.timestamps = h'.timestamps ∧
      ∀ q, h.nearest_location q = h'.nearest_location q := by
  obtain ⟨hall, hlh, hts, hdict⟩ := make_ok_inv hmk
  obtain ⟨hall', hlh', hts', hdict'⟩ := make_ok_inv hmk'
  have hpermlh : h'.location_history.Perm h.location_history := by
    rw [hlh, hlh']
    exact (List.perm_insertionSort tsle _).trans
      ((hperm.map normD).trans (List.perm_insertionSort tsle _).symm)
  have h2 : ((raw.map fun r => r.timestampMs.getD 0)).Nodup := by
    have h1 : raw.map (fun r => r.timestampMs) =
        (raw.map fun r => r.timestampMs.getD 0).map some := by
      rw [List.map_map]
      apply List.map_congr_left
      intro r hr
      obtain ⟨s, hs⟩ := Option.ne_none_iff_exists'.mp (hall r hr)
      simp [hs]
    rw [h1] at hnodup
    exact hnodup.of_map some
  have h3 : (h.location_history.map (·.timestampMs)).Perm
      (raw.map fun r => r.timestampMs.getD 0) := by
    rw [hlh]
    have hp := ((List.perm_insertionSort tsle (raw.map normD))).map (·.timestampMs)
    refine hp.trans ?_
    rw [List.map_map]
    exact List.Perm.refl _
  have hndkeys : (h.location_history.map (·.timestampMs)).Nodup :=
    h3.nodup_iff.mpr h2
  have hndkeys' : (h'.location_history.map (·.timestampMs)).Nodup :=
    ((hpermlh.map (·.timestampMs)).nodup_iff).mpr hndkeys
  have heq : h'.location_history = h.location_history :=
    sorted_perm_nodupkeys_eq hpermlh (make_sorted hmk').1 (make_sorted hmk).1 hndkeys'
  have htseq : h.timestamps = h'.timestamps := by
    rw [hts, hts', heq]
  have hdicteq : h.locdict = h'.locdict := by
    rw [hdict, hdict', heq]
  refine ⟨heq.symm, htseq, fun q => ?_⟩
  rw [LocationHistory.nearest_location, LocationHistory.nearest_location,
    nearest_location_from_timestamp_eq, nearest_location_from_timestamp_eq,
    htseq, hdicteq]

theorem claim_C8_amended_witness :
    rawAPerm.Perm rawA ∧ LocationHistory.make rawA = .ok histA ∧
      LocationHistory.make rawAPerm = .ok histA ∧
      (rawA.map fun r => r.timestampMs).Nodup ∧
      (histA.location_history = histA.location_history ∧
        histA.timestamps = histA.timestamps ∧
        ∀ q, histA.nearest_location q = histA.nearest_location q) :=
  ⟨List.Perm.swap _ _ _, rfl, rfl, by decide,
    claim_C8_amended (List.Perm.swap _ _ _)
      (show LocationHistory.make rawA = .ok histA from rfl)
      (show LocationHistory.make rawAPerm = .ok histA from rfl) (by decide)⟩

/-- C9: the matcher never excludes a record for lacking coordinates: on this
input the record nearest to the event timestamp has no latitudeE7/longitudeE7
fields and the match is a positive result whose latitude and longitude are
absent, even though another in-threshold record with coordinates exists. -/
theorem claim_C9_no_coordinate_filter :
    ∃ h rec, LocationHistory.make rawC9 = .ok h ∧
      add_location_to_photo h 500 100 = .ok (some (rec, 0)) ∧
      rec.latitude = none ∧ rec.longitude = none ∧
      ∃ other ∈ h.location_history, other.latitude ≠ none ∧
        pyInt (((|other.timestampMs - 500| : ℤ) : ℚ) / 1000) < 100 := by
  refine ⟨histC9, ⟨0, none, none⟩, rfl, ?_, rfl, rfl,
    ⟨2000, some (((50000000 : ℤ) : ℚ) / 10000000),
      some (((60000000 : ℤ) : ℚ) / 10000000)⟩,
    List.mem_cons_of_mem _ (List.mem_cons_self _ _), by simp, ?_⟩
  · have hn : histC9.nearest_location 500 =
        .ok (⟨0, none, none⟩, ((|(0 : ℤ) - 500| : ℤ) : ℚ) / 1000) := rfl
    rw [add_location_eq hn 100, pyInt_natAbs_div _ (abs_nonneg _),
      if_neg (by decide), show ((|(0 : ℤ) - 500|.toNat / 1000 : ℕ) : ℤ) = 0 from by decide]
  · rw [pyInt_natAbs_div _ (abs_nonneg _)]
    decide

end GoogleHistory
